import Mathlib

/-!
Verification development for the Word-Finder cache/ingest engine.

The definitions below are a shallow embedding of the Python sources:
* `database/optimized_word_database.py` — the SQLite word store
  (`insert_words_batch`, `get_words_by_length`, `search_words`,
  `get_length_distribution`, the dict-flag encoder);
* `src/word_manager.py` — the merge pipeline (`merge_with_database`) and the
  fetch orchestrator (`fetch_all_words`, `fetch_multiple_lengths_sequential`);
* `src/word_display_gui.py` — the capped fetch (`_fetch_with_limit`).

The SQLite table is modelled as a list of rows; `INSERT OR REPLACE` deletes
every conflicting row and appends a fresh one whose omitted columns take
their defaults (`created_at` gets `CURRENT_TIMESTAMP`, modelled by the
`now` argument).  Timestamps are abstract `Nat` ticks.
-/

namespace WordFinder

/-- Input record for a batch upsert: `{word, points, dict_matches}` as the
Python code reads them from an API page. -/
structure WordInput where
  word : String
  points : Int
  dict_matches : List (String × Bool)
deriving Repr, DecidableEq

/-- One row of the `words` table (the `id` autoincrement column is not
modelled; no claim mentions it). -/
structure Row where
  word : String
  length : Nat
  points : Int
  dict_flags : Nat
  created_at : Nat
  updated_at : Nat
deriving Repr, DecidableEq

/-- Static dictionary registry seeded by `_init_database` and duplicated in
the encoder's `flag_mapping`: name to bit position. -/
def flag_mapping : List (String × Nat) :=
  [("octordle", 0), ("otcwl", 1), ("quordle", 2),
   ("sowpods", 3), ("wordle", 4), ("wwf", 5)]

/-- Embedding of `_dict_matches_to_flags`: OR the bit of every name that is
present, true, and registered; unknown names are ignored. -/
def dict_matches_to_flags (m : List (String × Bool)) : Nat :=
  m.foldl
    (fun flags p =>
      if p.2 then
        match flag_mapping.lookup p.1 with
        | some bit => flags ||| (1 <<< bit)
        | none => flags
      else flags) 0

/-- Embedding of `_flags_to_dict_matches`: one boolean per registered name,
read off the bitmask. -/
def flags_to_dict_matches (flags : Nat) : List (String × Bool) :=
  flag_mapping.map (fun p => (p.1, flags.testBit p.2))

/-- The row written for one `word_data` tuple by the `INSERT OR REPLACE`
statement of `insert_words_batch`: `length` is derived from the word,
`updated_at` is set explicitly and `created_at` falls back to its column
default, both `CURRENT_TIMESTAMP` (= `now`). -/
def mk_row (w : WordInput) (now : Nat) : Row :=
  { word := w.word
    length := w.word.length
    points := w.points
    dict_flags := dict_matches_to_flags w.dict_matches
    created_at := now
    updated_at := now }

/-- SQLite `INSERT OR REPLACE` keyed by the UNIQUE `word` column: every
conflicting row is deleted and the fresh row is inserted. -/
def replace_row (db : List Row) (w : WordInput) (now : Nat) : List Row :=
  db.filter (fun r => r.word != w.word) ++ [mk_row w now]

/-- Embedding of `insert_words_batch`: empty input returns 0 without touching
storage; otherwise each record is upserted in order inside one transaction
and the statement count is reported. -/
def insert_words_batch (db : List Row) (words : List WordInput) (now : Nat) :
    List Row × Nat :=
  if words.isEmpty then (db, 0)
  else (words.foldl (fun d w => replace_row d w now) db, words.length)

/-- Stable insertion step for `ORDER BY points DESC` (a fixed deterministic
ordering; SQLite leaves tie order unspecified). -/
def insert_desc (r : Row) : List Row → List Row
  | [] => [r]
  | x :: xs => if x.points < r.points then r :: x :: xs else x :: insert_desc r xs

/-- Model of `ORDER BY points DESC`. -/
def sort_by_points_desc (l : List Row) : List Row :=
  l.foldr insert_desc []

/-- Embedding of `get_words_by_length`: filter on `length`, order by points
descending, and apply `LIMIT` only when the Python-truthy `limit` test
passes (`if limit:` — `None` and `0` both skip the clause). -/
def get_words_by_length (db : List Row) (length : Nat) (limit : Option Nat) :
    List Row :=
  let rows := sort_by_points_desc (db.filter (fun r => r.length == length))
  match limit with
  | some l => if l != 0 then rows.take l else rows
  | none => rows

/-- Embedding of `get_length_distribution`, read as a count function:
`SELECT length, COUNT(*) FROM words GROUP BY length` gives, for each length,
the number of rows of that length. -/
def get_length_distribution (db : List Row) (length : Nat) : Nat :=
  (db.filter (fun r => r.length == length)).length

/-- Reading of the encoder round-trip from the source decoder: `decode` lists
exactly the registered names, each carrying the input's value for that name
(default `false`). -/
def registry_expansion (m : List (String × Bool)) : List (String × Bool) :=
  flag_mapping.map (fun p => (p.1, (m.lookup p.1).getD false))

/-- Spec-following expansion used to state the round-trip claim literally:
the input mapping extended with `false` for every registered name absent
from it (so names outside the registry are kept). -/
def extend_with_registry (m : List (String × Bool)) : List (String × Bool) :=
  m ++ (flag_mapping.filter (fun p => (m.lookup p.1).isNone)).map
    (fun p => (p.1, false))

/-! Encoder lemmas. -/

lemma flag_lookup_inj (s t : String) (b : Nat)
    (hs : flag_mapping.lookup s = some b) (ht : flag_mapping.lookup t = some b) :
    s = t := by
  simp only [flag_mapping, List.lookup_cons, List.lookup_nil] at hs ht
  repeat' split at hs
  all_goals repeat' split at ht
  all_goals simp_all
  all_goals omega

lemma testBit_encode_fold (m : List (String × Bool)) (acc : Nat) (i : Nat) :
    (m.foldl
      (fun flags p =>
        if p.2 then
          match flag_mapping.lookup p.1 with
          | some bit => flags ||| (1 <<< bit)
          | none => flags
        else flags) acc).testBit i
      = (acc.testBit i
          || m.any (fun p => p.2 && (flag_mapping.lookup p.1 == some i))) := by
  induction m generalizing acc with
  | nil => simp
  | cons hd tl ih =>
    cases hv : hd.2 <;> simp only [List.foldl_cons, List.any_cons, hv]
    · simp [ih]
    · cases hlk : flag_mapping.lookup hd.1 with
      | none => simp [ih, hlk]
      | some b =>
        rw [ih]
        simp [hlk, Nat.testBit_or, Nat.one_shiftLeft, Nat.testBit_two_pow,
          Bool.or_assoc]
        by_cases h : b = i
        · simp [h]
        · rw [beq_eq_false_iff_ne.mpr h]
          simp [h]

lemma beq_lookup_false (k : String) (bit : Nat) (n : String)
    (hn : flag_mapping.lookup n = some bit) (hne : n ≠ k) :
    (flag_mapping.lookup k == some bit) = false := by
  cases hlk : flag_mapping.lookup k with
  | none => simp
  | some b =>
    by_cases hb : b = bit
    · subst hb
      exact absurd (flag_lookup_inj n k b hn hlk) hne
    · simp [hb]

lemma any_bit_eq_lookup (m : List (String × Bool)) (h : (m.map Prod.fst).Nodup)
    (n : String) (bit : Nat) (hn : flag_mapping.lookup n = some bit) :
    (m.any (fun p => p.2 && (flag_mapping.lookup p.1 == some bit)))
      = ((m.lookup n).getD false) := by
  induction m with
  | nil => simp
  | cons hd tl ih =>
    obtain ⟨k, v⟩ := hd
    simp only [List.map_cons, List.nodup_cons] at h
    obtain ⟨hk, htl⟩ := h
    simp only [List.any_cons, List.lookup_cons]
    by_cases hkn : n = k
    · have hlk : flag_mapping.lookup k = some bit := hkn ▸ hn
      have htlany :
          tl.any (fun p => p.2 && (flag_mapping.lookup p.1 == some bit)) = false := by
        rw [List.any_eq_false]
        intro p hp
        simp only [Bool.and_eq_true, beq_iff_eq, not_and]
        intro _ hpl
        have hpn : p.1 = n := flag_lookup_inj p.1 n bit hpl hn
        exact absurd (hpn ▸ (List.mem_map_of_mem Prod.fst hp)) (by rw [hkn]; exact hk)
      rw [htlany, hlk]
      have hb : (n == k) = true := beq_iff_eq.mpr hkn
      simp [hb]
    · have hb : (n == k) = false := beq_eq_false_iff_ne.mpr hkn
      rw [hb, beq_lookup_false k bit n hn hkn]
      simp [ih htl]

/-- Claim C5 (amended): for a mapping with distinct names (a Python dict),
`decode(encode(m))` lists exactly the registered names, giving each the value
`m` assigns it (default `false`); names outside the registry are dropped,
not preserved. -/
theorem decode_encode_registry (m : List (String × Bool))
    (h : (m.map Prod.fst).Nodup) :
    flags_to_dict_matches (dict_matches_to_flags m) = registry_expansion m := by
  unfold flags_to_dict_matches registry_expansion
  apply List.map_congr_left
  intro p hp
  have hbit : (dict_matches_to_flags m).testBit p.2
      = ((m.lookup p.1).getD false) := by
    rw [show dict_matches_to_flags m = m.foldl
      (fun flags q =>
        if q.2 then
          match flag_mapping.lookup q.1 with
          | some bit => flags ||| (1 <<< bit)
          | none => flags
        else flags) 0 from rfl]
    rw [testBit_encode_fold]
    simp only [Nat.zero_testBit, Bool.false_or]
    apply any_bit_eq_lookup m h p.1 p.2
    simp only [flag_mapping, List.mem_cons, List.mem_singleton,
      List.not_mem_nil, or_false] at hp
    rcases hp with rfl | rfl | rfl | rfl | rfl | rfl <;> rfl
  rw [hbit]

/-- Claim C5 witness: concrete round trip through the amended theorem. -/
theorem decode_encode_registry_witness :
    ((([("wordle", true)] : List (String × Bool)).map Prod.fst).Nodup)
    ∧ flags_to_dict_matches (dict_matches_to_flags [("wordle", true)])
        = registry_expansion [("wordle", true)] :=
  ⟨by decide, decode_encode_registry [("wordle", true)] (by decide)⟩

/-- Claim C5 counterexample: for the mapping `{"foo": true}` (a name not in
the registry), `decode(encode(m))` does not equal `m` extended with `false`
for the absent registered names — the unregistered name is dropped by the
round trip but kept by the claimed expansion. -/
theorem decode_encode_drops_unregistered_cx :
    (flags_to_dict_matches (dict_matches_to_flags [("foo", true)])).lookup "foo"
      = none
    ∧ (extend_with_registry [("foo", true)]).lookup "foo" = some true := by
  exact ⟨by decide, by decide⟩

/-! Store lemmas. -/

lemma insert_words_batch_single (db : List Row) (x : WordInput) (t : Nat) :
    (insert_words_batch db [x] t).1 = replace_row db x t := by
  simp [insert_words_batch]

lemma replace_row_filter_ne (db : List Row) (x : WordInput) (t : Nat) :
    (replace_row db x t).filter (fun r => r.word != x.word)
      = db.filter (fun r => r.word != x.word) := by
  simp [replace_row, List.filter_append, List.filter_filter, mk_row]

lemma replace_row_filter_eq (db : List Row) (x : WordInput) (t : Nat) :
    (replace_row db x t).filter (fun r => r.word == x.word) = [mk_row x t] := by
  simp [replace_row, List.filter_append, List.filter_filter, mk_row, bne]

lemma replace_row_twice (db : List Row) (x y : WordInput) (t1 t2 : Nat)
    (hw : y.word = x.word) :
    replace_row (replace_row db x t1) y t2 = replace_row db y t2 := by
  have h1 : (replace_row db x t1).filter (fun r => r.word != y.word)
      = db.filter (fun r => r.word != y.word) := by
    rw [hw]; exact replace_row_filter_ne db x t1
  show (replace_row db x t1).filter (fun r => r.word != y.word) ++ [mk_row y t2]
      = db.filter (fun r => r.word != y.word) ++ [mk_row y t2]
  rw [h1]

lemma get_length_distribution_replace (db : List Row) (x : WordInput)
    (t L : Nat) :
    get_length_distribution (replace_row db x t) L
      = get_length_distribution (db.filter (fun r => r.word != x.word)) L
        + (if x.word.length == L then 1 else 0) := by
  simp only [get_length_distribution, replace_row, List.filter_append,
    List.length_append, mk_row]
  by_cases h : x.word.length == L <;> simp [h]

/-- Claim C1: upserting the same word twice (points `p1` then `p2`) leaves
exactly one row for that word, carrying the second call's points and
dict_flags (replace, not error and not an OR-merge of bits), and the
`length_distribution` count for the word's length is unchanged by the second
call. -/
theorem upsert_twice_last_write_wins (db : List Row) (w : String) (p1 p2 : Int)
    (dm1 dm2 : List (String × Bool)) (t1 t2 : Nat) :
    ((insert_words_batch (insert_words_batch db [⟨w, p1, dm1⟩] t1).1
        [⟨w, p2, dm2⟩] t2).1.filter (fun r => r.word == w)
      = [mk_row ⟨w, p2, dm2⟩ t2])
    ∧ get_length_distribution
        (insert_words_batch (insert_words_batch db [⟨w, p1, dm1⟩] t1).1
          [⟨w, p2, dm2⟩] t2).1 w.length
      = get_length_distribution (insert_words_batch db [⟨w, p1, dm1⟩] t1).1
          w.length := by
  rw [insert_words_batch_single, insert_words_batch_single,
    replace_row_twice db ⟨w, p1, dm1⟩ ⟨w, p2, dm2⟩ t1 t2 rfl]
  refine ⟨replace_row_filter_eq db ⟨w, p2, dm2⟩ t2, ?_⟩
  rw [get_length_distribution_replace, get_length_distribution_replace]

/-- Claim C4 counterexample: upserting the word "ab" at time 1 and again at
time 2 rewrites `created_at` from 1 to 2 — `INSERT OR REPLACE` deletes the
old row and the omitted `created_at` column takes its default
`CURRENT_TIMESTAMP` again, so `created_at` is not left unchanged. -/
theorem upsert_resets_created_at_cx :
    (insert_words_batch [] [⟨"ab", 3, []⟩] 1).1
      = [{ word := "ab", length := 2, points := 3, dict_flags := 0,
           created_at := 1, updated_at := 1 }]
    ∧ (insert_words_batch (insert_words_batch [] [⟨"ab", 3, []⟩] 1).1
        [⟨"ab", 5, []⟩] 2).1
      = [{ word := "ab", length := 2, points := 5, dict_flags := 0,
           created_at := 2, updated_at := 2 }] := by
  exact ⟨by decide, by decide⟩

/-- Claim C4 (amended): every upsert of a word rewrites that word's whole
row; `updated_at` is refreshed to the upsert time, and `created_at` is not
preserved — it is likewise reset to the upsert time (the row is deleted and
re-inserted with the column default). -/
theorem upsert_rewrites_timestamps (db : List Row) (w : String) (p : Int)
    (dm : List (String × Bool)) (t : Nat) :
    ((insert_words_batch db [⟨w, p, dm⟩] t).1).filter (fun r => r.word == w)
      = [{ word := w, length := w.length, points := p,
           dict_flags := dict_matches_to_flags dm,
           created_at := t, updated_at := t }] := by
  rw [insert_words_batch_single]
  exact replace_row_filter_eq db ⟨w, p, dm⟩ t

/-! Length-invariant lemmas for C9. -/

lemma mem_replace_row {r : Row} {db : List Row} {x : WordInput} {t : Nat}
    (hr : r ∈ replace_row db x t) : r ∈ db ∨ r = mk_row x t := by
  simp only [replace_row, List.mem_append, List.mem_filter,
    List.mem_singleton] at hr
  rcases hr with ⟨h, _⟩ | h
  · exact Or.inl h
  · exact Or.inr h

lemma mem_insert_fold {r : Row} {ws : List WordInput} {db : List Row} {t : Nat}
    (hr : r ∈ ws.foldl (fun d w => replace_row d w t) db) :
    r ∈ db ∨ ∃ w, w ∈ ws ∧ r = mk_row w t := by
  induction ws generalizing db with
  | nil => exact Or.inl hr
  | cons hd tl ih =>
    rcases ih hr with h | ⟨w, hw, hr'⟩
    · rcases mem_replace_row h with h' | h'
      · exact Or.inl h'
      · exact Or.inr ⟨hd, List.mem_cons_self hd tl, h'⟩
    · exact Or.inr ⟨w, List.mem_cons_of_mem hd hw, hr'⟩

lemma insert_words_batch_len (db : List Row) (ws : List WordInput) (now : Nat)
    (h : ∀ r ∈ db, r.length = r.word.length) :
    ∀ r ∈ (insert_words_batch db ws now).1, r.length = r.word.length := by
  intro r hr
  unfold insert_words_batch at hr
  by_cases he : ws.isEmpty
  · rw [if_pos he] at hr
    exact h r hr
  · rw [if_neg he] at hr
    rcases mem_insert_fold hr with h' | ⟨w, _, rfl⟩
    · exact h r h'
    · rfl

/-- Claim C9: the core write path derives the stored `length` from the word
itself, so starting from any store satisfying `length = len(word)`, no
sequence of batch upserts can produce a row violating it. -/
theorem insert_batches_length_invariant (db : List Row)
    (batches : List (List WordInput × Nat))
    (h : db.all (fun r => r.length == r.word.length) = true) :
    (batches.foldl (fun d b => (insert_words_batch d b.1 b.2).1) db).all
      (fun r => r.length == r.word.length) = true := by
  induction batches generalizing db with
  | nil => exact h
  | cons hd tl ih =>
    refine ih (insert_words_batch db hd.1 hd.2).1 ?_
    rw [List.all_eq_true]
    intro r hr
    have := insert_words_batch_len db hd.1 hd.2 ?_ r hr
    · exact beq_iff_eq.mpr this
    · intro r' hr'
      have := List.all_eq_true.mp h r' hr'
      exact beq_iff_eq.mp this

/-- Claim C9 witness: a concrete batch run through the invariant theorem. -/
theorem insert_batches_length_invariant_witness :
    (([] : List Row).all (fun r => r.length == r.word.length) = true)
    ∧ (([([⟨"cat", (5 : Int), [("wwf", true)]⟩], 7)].foldl
        (fun d b => (insert_words_batch d b.1 b.2).1) ([] : List Row)).all
          (fun r => r.length == r.word.length) = true) :=
  ⟨by decide,
   insert_batches_length_invariant [] [([⟨"cat", (5 : Int), [("wwf", true)]⟩], 7)]
     (by decide)⟩

/-- Claim C10: `get_words_by_length` with `limit = 0` is the unlimited query —
the Python-truthy test `if limit:` skips the `LIMIT` clause for 0 exactly as
it does for `None`. -/
theorem get_words_by_length_zero_limit (db : List Row) (L : Nat) :
    get_words_by_length db L (some 0) = get_words_by_length db L none := rfl

/-! Search: SQLite `LIKE` semantics and the claimed `?`/`*` wildcard
semantics. -/

/-- ASCII lower-casing, the folding SQLite's default `LIKE` applies. -/
def ascii_lower (c : Char) : Char :=
  if 65 ≤ c.toNat ∧ c.toNat ≤ 90 then Char.ofNat (c.toNat + 32) else c

/-- SQLite `LIKE` matcher: `%` matches any sequence, `_` exactly one
character, all other characters match themselves ASCII-case-insensitively.
The pattern is anchored (the whole word must match). -/
def like_match_aux : List Char → List Char → Bool
  | [], s => s.isEmpty
  | p :: ps, [] => if p = '%' then like_match_aux ps [] else false
  | p :: ps, c :: cs =>
    if p = '%' then like_match_aux ps (c :: cs) || like_match_aux (p :: ps) cs
    else if p = '_' then like_match_aux ps cs
    else (ascii_lower p == ascii_lower c) && like_match_aux ps cs
termination_by p s => (p.length, s.length)

/-- `word LIKE pattern` over whole strings. -/
def like_match (pat w : String) : Bool := like_match_aux pat.data w.data

/-- Spec-following wildcard semantics for the search claim: `?` matches
exactly one character, `*` any sequence, every other character itself. -/
def wildcard_match_aux : List Char → List Char → Bool
  | [], s => s.isEmpty
  | p :: ps, [] => if p = '*' then wildcard_match_aux ps [] else false
  | p :: ps, c :: cs =>
    if p = '*' then wildcard_match_aux ps (c :: cs) || wildcard_match_aux (p :: ps) cs
    else if p = '?' then wildcard_match_aux ps cs
    else (p == c) && wildcard_match_aux ps cs
termination_by p s => (p.length, s.length)

/-- Claimed wildcard match over whole strings. -/
def wildcard_match (pat w : String) : Bool := wildcard_match_aux pat.data w.data

/-- Embedding of `search_words`: conjunctive SQL filter.  The Python-truthy
tests `if pattern:` / `if contains:` skip the clause for `None` and for the
empty string; the pattern is passed to `LIKE` verbatim, and `contains` is
wrapped in `%...%`. -/
def search_words (db : List Row) (pattern : Option String)
    (min_points max_points : Option Int) (contains : Option String) :
    List Row :=
  sort_by_points_desc (db.filter (fun r =>
    (match pattern with
     | some p => if p != "" then like_match p r.word else true
     | none => true)
    && (match min_points with
        | some mp => decide (mp ≤ r.points)
        | none => true)
    && (match max_points with
        | some mp => decide (r.points ≤ mp)
        | none => true)
    && (match contains with
        | some c => if c != "" then like_match ("%" ++ c ++ "%") r.word
                    else true
        | none => true)))

lemma mem_insert_desc {r x : Row} {l : List Row} :
    r ∈ insert_desc x l ↔ r = x ∨ r ∈ l := by
  induction l with
  | nil => simp [insert_desc]
  | cons hd tl ih =>
    simp only [insert_desc]
    split
    · simp [List.mem_cons]
    · simp only [List.mem_cons, ih]
      tauto

lemma mem_sort_by_points_desc {r : Row} {l : List Row} :
    r ∈ sort_by_points_desc l ↔ r ∈ l := by
  induction l with
  | nil => simp [sort_by_points_desc]
  | cons hd tl ih =>
    show r ∈ insert_desc hd (sort_by_points_desc tl) ↔ _
    rw [mem_insert_desc]
    simp [ih, List.mem_cons]

/-- Claim C2 counterexample: the store holds the word "cat"; the pattern
"c?t" matches "cat" under the claimed `?`-wildcard semantics, yet
`search_words` returns nothing — `?` is passed to `LIKE` verbatim, where it
only matches a literal question mark; no translation happens. -/
theorem search_no_wildcard_translation_cx :
    search_words [⟨"cat", 3, 5, 0, 0, 0⟩] (some "c?t") none none none = []
    ∧ wildcard_match "c?t" "cat" = true
    ∧ like_match "c?t" "cat" = false := by
  refine ⟨?_, ?_, ?_⟩
  · simp [search_words, like_match, like_match_aux, ascii_lower,
      sort_by_points_desc]
  · simp [wildcard_match, wildcard_match_aux]
  · simp [like_match, like_match_aux, ascii_lower]

/-- Claim C2 (amended): the pattern is not translated: it is passed verbatim
to the store's `LIKE`, so a word is returned iff it `LIKE`-matches the
pattern — `_` matching exactly one character, `%` any sequence, other
characters themselves ASCII-case-insensitively; `?` and `*` are literals. -/
theorem search_pattern_like_semantics (db : List Row) (pat : String) (r : Row)
    (hp : pat ≠ "") :
    (r ∈ search_words db (some pat) none none none
      ↔ r ∈ db ∧ like_match pat r.word = true) := by
  unfold search_words
  rw [mem_sort_by_points_desc, List.mem_filter]
  have hb : (pat != "") = true := bne_iff_ne.mpr hp
  simp [hb]

/-- Claim C2 witness: searching for "c_t" in a store holding "cat" through
the amended theorem. -/
theorem search_pattern_like_semantics_witness :
    ("c_t" ≠ "")
    ∧ ((⟨"cat", 3, 5, 0, 0, 0⟩ : Row)
          ∈ search_words [⟨"cat", 3, 5, 0, 0, 0⟩] (some "c_t") none none none
        ↔ (⟨"cat", 3, 5, 0, 0, 0⟩ : Row) ∈ [(⟨"cat", 3, 5, 0, 0, 0⟩ : Row)]
          ∧ like_match "c_t" "cat" = true) :=
  ⟨by decide,
   search_pattern_like_semantics [⟨"cat", 3, 5, 0, 0, 0⟩] "c_t"
     ⟨"cat", 3, 5, 0, 0, 0⟩ (by decide)⟩

/-! Merge pipeline (`merge_with_database`).  The Python method wraps all four
store calls (count, batch insert, recount, size info) in one
`try/except Exception` that prints the error and returns `False`. -/

/-- Which store calls raise during a merge: the first count query, the batch
insert, the recount query, and the size query, in call order. -/
structure StoreEnv where
  err_get1 : Bool
  err_insert : Bool
  err_get2 : Bool
  err_size : Bool
deriving Repr, DecidableEq

/-- Embedding of `merge_with_database`: empty input returns `False` before
any store call; an exception from any store call is caught and becomes a
`False` return (the insert is transactional, so a failing insert leaves the
store unchanged; a failure after the insert leaves the new rows in place). -/
def merge_with_database (env : StoreEnv) (db : List Row)
    (new_words : List WordInput) (length : Nat) (is_part : Bool) (now : Nat) :
    Bool × List Row :=
  if new_words.isEmpty then (false, db)
  else if env.err_get1 then (false, db)
  else if env.err_insert then (false, db)
  else
    let db2 := (insert_words_batch db new_words now).1
    if env.err_get2 then (false, db2)
    else if env.err_size then (false, db2)
    else (true, db2)

/-- Claim C3 counterexample: a non-empty batch whose store insert raises
makes `merge_with_database` return `False` — the store error is swallowed
and converted into the same `False` the empty-batch case uses, so `False` is
not returned only on empty input and errors do not propagate. -/
theorem merge_swallows_store_error_cx :
    (merge_with_database ⟨false, true, false, false⟩ [] [⟨"cat", 5, []⟩]
        3 false 0).1 = false
    ∧ ([⟨"cat", 5, []⟩] : List WordInput) ≠ [] := by
  exact ⟨by decide, by decide⟩

/-- Claim C3 (amended): `merge` returns `False` exactly when the batch is
empty or some store call raised; store-level errors are caught inside the
merge and reported as a `False` return — they never propagate to the
caller. -/
theorem merge_false_iff (env : StoreEnv) (db : List Row) (ws : List WordInput)
    (L : Nat) (ip : Bool) (now : Nat) :
    ((merge_with_database env db ws L ip now).1 = false
      ↔ (ws = [] ∨ env.err_get1 = true ∨ env.err_insert = true
          ∨ env.err_get2 = true ∨ env.err_size = true)) := by
  obtain ⟨e1, e2, e3, e4⟩ := env
  cases ws with
  | nil => simp [merge_with_database]
  | cons h t =>
    cases e1 <;> cases e2 <;> cases e3 <;> cases e4 <;>
      simp [merge_with_database]

/-! Fetch orchestrator.  `fetch_all_words` and
`_fetch_single_length_with_progress` share one control flow (the latter only
adds progress callbacks), embedded once below.  The remote service is a
function from page number to response; the external interrupt is modelled by
a poll counter: the `signal_handler.should_exit` flag reads true from the
`cancelAt`-th call of `_should_exit()` on (the signal arrives between the
`cancelAt-1`-th and `cancelAt`-th poll), or once the code itself sets the
flag in an exception handler.  Without an attached signal handler
`_should_exit()` is constantly false. -/

/-- First page of the initial response: pagination envelope plus words. -/
structure FirstPage where
  num_pages : Nat
  num_words : Nat
  word_list : List WordInput
deriving Repr, DecidableEq

/-- Initial request outcome: an exception, or a `word_pages` list. -/
inductive FirstResp where
  | err : FirstResp
  | ok (word_pages : List FirstPage) : FirstResp
deriving Repr, DecidableEq

/-- Outcome of requesting page `p ≥ 2`: an exception, or a `word_pages` list
carrying each page object's `word_list`. -/
inductive PageResp where
  | err : PageResp
  | ok (word_pages : List (List WordInput)) : PageResp

/-- Environment of one single-length fetch: the remote responses, whether a
signal handler is attached, and the poll index from which the external
cancellation signal is visible. -/
structure FetchEnv where
  first : FirstResp
  page : Nat → PageResp
  signalAttached : Bool
  cancelAt : Nat

/-- Observable state threaded through a fetch: the store, the shared
`should_exit` flag, the number of `_should_exit()` polls so far, the
`merge_with_database` calls made (length, words, is_partial), and the page
requests issued (page number; 1 is the initial request). -/
structure FetchState where
  db : List Row
  flag : Bool
  polls : Nat
  merges : List (Nat × List WordInput × Bool)
  requests : List Nat

/-- One `_should_exit()` read: with a handler attached, the flag or the
already-delivered external signal; otherwise constantly false. -/
def should_exit_now (env : FetchEnv) (s : FetchState) : Bool :=
  env.signalAttached && (s.flag || decide (env.cancelAt ≤ s.polls))

/-- Advance the poll counter past one `_should_exit()` call. -/
def after_poll (s : FetchState) : FetchState := { s with polls := s.polls + 1 }

/-- Record an issued page request. -/
def log_request (s : FetchState) (p : Nat) : FetchState :=
  { s with requests := s.requests ++ [p] }

/-- Effect of a `merge_with_database(words, length, is_partial)` call made by
the orchestrator (store calls succeed during a fetch): the batch is upserted
and the call is recorded. -/
def merge_step (s : FetchState) (L : Nat) (ws : List WordInput) (ip : Bool) :
    FetchState :=
  { s with db := (insert_words_batch s.db ws 0).1
           merges := s.merges ++ [(L, ws, ip)] }

/-- Words a page response contributes: `word_pages[0].word_list` when the
request succeeded and the envelope is non-empty, nothing otherwise. -/
def page_words : PageResp → List WordInput
  | .err => []
  | .ok [] => []
  | .ok (wl :: _) => wl

/-- The page loop of `fetch_all_words` (pages 2..total_pages): poll at the
loop head (stop, merge partial, break when set); request the page; on a page
error poll again and stop-partial only if cancellation is also set; after a
successful page, append `word_pages[0].word_list` and poll once more (the
sleep-skip check). -/
def fetch_loop (env : FetchEnv) (L : Nat) :
    List Nat → List WordInput → FetchState → List WordInput × FetchState
  | [], acc, s => (acc, s)
  | p :: rest, acc, s =>
    if should_exit_now env s then
      (acc, merge_step (after_poll s) L acc true)
    else
      let s1 := log_request (after_poll s) p
      match env.page p with
      | .err =>
        if should_exit_now env s1 then
          (acc, merge_step (after_poll s1) L acc true)
        else
          fetch_loop env L rest acc (after_poll s1)
      | .ok wps =>
        fetch_loop env L rest (acc ++ page_words (.ok wps)) (after_poll s1)

/-- Embedding of the single-length fetch (`fetch_all_words` with
`show_cached=False`, identically `_fetch_single_length_with_progress`):
initial poll; initial request (an exception sets the shared flag when a
handler is attached and returns the empty accumulation); empty `word_pages`
returns empty; otherwise accumulate page 1, poll (stop-partial), run the
page loop, and at the end poll once more — merging as complete only when no
exit is requested. -/
def fetch_all_words (env : FetchEnv) (L : Nat) (s : FetchState) :
    List WordInput × FetchState :=
  if should_exit_now env s then ([], after_poll s)
  else
    let s1 := log_request (after_poll s) 1
    match env.first with
    | .err => ([], { s1 with flag := s1.flag || env.signalAttached })
    | .ok [] => ([], s1)
    | .ok (fp :: _) =>
      let acc := fp.word_list
      if should_exit_now env s1 then
        (acc, merge_step (after_poll s1) L acc true)
      else
        let r := fetch_loop env L (List.range' 2 (fp.num_pages - 1)) acc
          (after_poll s1)
        if should_exit_now env r.2 then (r.1, after_poll r.2)
        else (r.1, merge_step (after_poll r.2) L r.1 false)

/-- Fresh fetch state over a given store. -/
def init_state (db : List Row) : FetchState := ⟨db, false, 0, [], []⟩

/-- Concatenation of the words contributed by a list of pages. -/
def pages_join (env : FetchEnv) (pnums : List Nat) : List WordInput :=
  (pnums.map (fun p => page_words (env.page p))).flatten

/-- Embedding of `fetch_multiple_lengths_sequential`: one single-length
fetch per requested length, in order, aggregating `(length, words)` pairs;
the shared flag and poll counter thread through all lengths.  (The inner
fetch catches every exception itself, so the driver's own `except` branch is
unreachable in this model.) -/
def fetch_sequential (sa : Bool) (cAt : Nat) (firstL : Nat → FirstResp)
    (pageL : Nat → Nat → PageResp) :
    List Nat → FetchState → List (Nat × List WordInput) × FetchState
  | [], s => ([], s)
  | L :: rest, s =>
    let r := fetch_all_words ⟨firstL L, pageL L, sa, cAt⟩ L s
    let r2 := fetch_sequential sa cAt firstL pageL rest r.2
    ((L, r.1) :: r2.1, r2.2)

/-! Loop lemmas for the cancellation claims. -/

lemma fetch_loop_no_cancel (env : FetchEnv) (L : Nat)
    (hsa : env.signalAttached = true) :
    ∀ (pnums rest : List Nat) (acc : List WordInput) (s : FetchState),
      s.flag = false → s.polls + 2 * pnums.length ≤ env.cancelAt →
      fetch_loop env L (pnums ++ rest) acc s
        = fetch_loop env L rest (acc ++ pages_join env pnums)
            ⟨s.db, s.flag, s.polls + 2 * pnums.length, s.merges,
             s.requests ++ pnums⟩ := by
  intro pnums
  induction pnums with
  | nil =>
    intro rest acc s hflag hcancel
    simp only [List.nil_append, pages_join, List.map_nil, List.flatten_nil,
      List.append_nil, List.length_nil, Nat.mul_zero, Nat.add_zero]
  | cons p tl ih =>
    intro rest acc s hflag hcancel
    simp only [List.length_cons] at hcancel ⊢
    have h0 : ¬ (env.cancelAt ≤ s.polls) := by omega
    have h1 : ¬ (env.cancelAt ≤ s.polls + 1) := by omega
    have hse : should_exit_now env s = false := by
      simp [should_exit_now, hsa, hflag, h0]
    rw [List.cons_append]
    simp only [fetch_loop, hse, Bool.false_eq_true, if_false]
    cases hp : env.page p with
    | err =>
      have hse1 : should_exit_now env (log_request (after_poll s) p) = false := by
        simp [should_exit_now, log_request, after_poll, hsa, hflag, h1]
      simp only [hse1, Bool.false_eq_true, if_false]
      rw [ih rest acc (after_poll (log_request (after_poll s) p))
        (by simp [after_poll, log_request, hflag])
        (by dsimp only [after_poll, log_request]; omega)]
      congr 1
      · simp [pages_join, hp, page_words]
      · simp only [after_poll, log_request]
        congr 1
        · omega
        · simp
    | ok wps =>
      dsimp only
      rw [ih rest (acc ++ page_words (.ok wps))
        (after_poll (log_request (after_poll s) p))
        (by simp [after_poll, log_request, hflag])
        (by dsimp only [after_poll, log_request]; omega)]
      congr 1
      · simp [pages_join, hp, page_words, List.append_assoc]
      · simp only [after_poll, log_request]
        congr 1
        · omega
        · simp

lemma fetch_loop_cancel_head (env : FetchEnv) (L p : Nat) (rest : List Nat)
    (acc : List WordInput) (s : FetchState)
    (hsa : env.signalAttached = true) (h : env.cancelAt ≤ s.polls) :
    fetch_loop env L (p :: rest) acc s
      = (acc, merge_step (after_poll s) L acc true) := by
  have hse : should_exit_now env s = true := by
    simp [should_exit_now, hsa, h]
  simp [fetch_loop, hse]

/-- Claim C6: with a signal handler attached, if the external cancellation
signal becomes visible at a page-boundary check point — the check right
after page 1 (`cancelAt = 1`, `k = 1`), or the loop-head check before
requesting page `k+1` (`cancelAt = 2k`, `1 ≤ k`, `k+1 ≤ num_pages`) — the
page loop stops immediately: the fetch merges exactly the words accumulated
from pages 1..k with `is_partial = true`, returns that list as its
(non-failure) result, stores exactly those words, and never requests any
page beyond `k`. -/
theorem fetch_cancel_at_page_boundary (env : FetchEnv) (L : Nat)
    (db0 : List Row) (fp : FirstPage) (rest : List FirstPage) (k : Nat)
    (hsa : env.signalAttached = true)
    (hfirst : env.first = FirstResp.ok (fp :: rest))
    (hk : (env.cancelAt = 1 ∧ k = 1)
        ∨ (env.cancelAt = 2 * k ∧ 1 ≤ k ∧ k + 1 ≤ fp.num_pages)) :
    (fetch_all_words env L (init_state db0)).1
        = fp.word_list ++ pages_join env (List.range' 2 (k - 1))
    ∧ (fetch_all_words env L (init_state db0)).2.merges
        = [(L, fp.word_list ++ pages_join env (List.range' 2 (k - 1)), true)]
    ∧ (fetch_all_words env L (init_state db0)).2.requests
        = 1 :: List.range' 2 (k - 1)
    ∧ (fetch_all_words env L (init_state db0)).2.db
        = (insert_words_batch db0
            (fp.word_list ++ pages_join env (List.range' 2 (k - 1))) 0).1 := by
  rcases hk with ⟨hc, hk1⟩ | ⟨hc, hk1, hkT⟩
  · subst hk1
    have h0 : ¬ (env.cancelAt ≤ 0) := by omega
    have h1 : env.cancelAt ≤ 1 := by omega
    refine ⟨?_, ?_, ?_, ?_⟩ <;>
      simp [fetch_all_words, should_exit_now, init_state, after_poll,
        log_request, merge_step, hsa, hfirst, h0, h1, pages_join]
  · have h0 : ¬ (env.cancelAt ≤ 0) := by omega
    have h1 : ¬ (env.cancelAt ≤ 1) := by omega
    have hse0 : should_exit_now env (init_state db0) = false := by
      simp [should_exit_now, init_state, h0]
    have hse1 : should_exit_now env
        (log_request (after_poll (init_state db0)) 1) = false := by
      simp [should_exit_now, init_state, after_poll, log_request, h1]
    have hsplit : List.range' 2 (fp.num_pages - 1)
        = List.range' 2 (k - 1)
          ++ ((k + 1) :: List.range' (k + 2) (fp.num_pages - (k + 1))) := by
      have e1 : fp.num_pages - 1 = (fp.num_pages - k) + (k - 1) := by omega
      have e2 : 2 + 1 * (k - 1) = k + 1 := by omega
      have e3 : fp.num_pages - k = (fp.num_pages - (k + 1)) + 1 := by omega
      rw [e1, ← List.range'_append 2 (k - 1) (fp.num_pages - k) 1, e2, e3,
        List.range'_succ]
    have hloop := fetch_loop_no_cancel env L hsa (List.range' 2 (k - 1))
      ((k + 1) :: List.range' (k + 2) (fp.num_pages - (k + 1)))
      fp.word_list ⟨db0, false, 2, [], [1]⟩ rfl
      (by simp only [List.length_range']; omega)
    simp only [List.length_range'] at hloop
    have hhead := fetch_loop_cancel_head env L (k + 1)
      (List.range' (k + 2) (fp.num_pages - (k + 1)))
      (fp.word_list ++ pages_join env (List.range' 2 (k - 1)))
      ⟨db0, false, 2 + 2 * (k - 1), [], [1] ++ List.range' 2 (k - 1)⟩ hsa
      (by dsimp only; omega)
    have hple : env.cancelAt ≤ 2 + 2 * (k - 1) + 1 := by omega
    have hne0 : ¬ (env.cancelAt = 0) := by omega
    refine ⟨?_, ?_, ?_, ?_⟩ <;>
      simp only [fetch_all_words, hse0, Bool.false_eq_true, if_false, hfirst,
        hse1, init_state, after_poll, log_request, Nat.zero_add, Nat.add_zero,
        List.nil_append] <;>
      rw [show (0 : Nat) + 1 + 1 = 2 from rfl] <;>
      rw [hsplit, hloop, hhead] <;>
      simp [should_exit_now, merge_step, after_poll, hsa, hple, hne0, h1]

/-! Concrete remote service from the spec's test scenario: 3 pages for
length 4, page size 2. -/

def w_abcd : WordInput := ⟨"abcd", 10, []⟩

def w_efgh : WordInput := ⟨"efgh", 7, []⟩

def w_ijkl : WordInput := ⟨"ijkl", 9, []⟩

def w_mnop : WordInput := ⟨"mnop", 3, []⟩

def w_qrst : WordInput := ⟨"qrst", 5, []⟩

def w_uvwx : WordInput := ⟨"uvwx", 1, []⟩

def demo_page : Nat → PageResp
  | 2 => .ok [[w_ijkl, w_mnop]]
  | 3 => .ok [[w_qrst, w_uvwx]]
  | _ => .err

/-- Scenario environment with cancellation visible from poll 2 (that is,
requested after page 1 was accumulated). -/
def demo_env : FetchEnv :=
  ⟨.ok [⟨3, 6, [w_abcd, w_efgh]⟩], demo_page, true, 2⟩

/-- Claim C6 witness: cancelling after page 1 of the 3-page scenario returns
exactly the two page-1 words, merged once as partial, with page 2 never
requested. -/
theorem fetch_cancel_at_page_boundary_witness :
    (fetch_all_words demo_env 4 (init_state [])).1
        = [w_abcd, w_efgh] ++ pages_join demo_env (List.range' 2 (1 - 1))
    ∧ (fetch_all_words demo_env 4 (init_state [])).2.merges
        = [(4, [w_abcd, w_efgh] ++ pages_join demo_env (List.range' 2 (1 - 1)),
            true)]
    ∧ (fetch_all_words demo_env 4 (init_state [])).2.requests
        = 1 :: List.range' 2 (1 - 1)
    ∧ (fetch_all_words demo_env 4 (init_state [])).2.db
        = (insert_words_batch []
            ([w_abcd, w_efgh] ++ pages_join demo_env (List.range' 2 (1 - 1)))
            0).1 :=
  fetch_cancel_at_page_boundary demo_env 4 [] ⟨3, 6, [w_abcd, w_efgh]⟩ [] 1
    rfl rfl (Or.inr ⟨rfl, by decide, by decide⟩)

/-! Sequential multi-length fetch (C8). -/

/-- Remote responses for the C8 scenario: length 3's first request throws;
length 4 answers with one page holding two words. -/
def seq_firstL : Nat → FirstResp
  | 3 => .err
  | 4 => .ok [⟨1, 2, [w_abcd, w_efgh]⟩]
  | _ => .ok []

def seq_pageL : Nat → Nat → PageResp := fun _ _ => .err

/-- Claim C8 counterexample: with a signal handler attached (as `main.py`
always does), the error on length 3 sets the shared exit flag, so the
length-4 fetch returns empty as well: the aggregate is `{3: [], 4: []}`,
not `{3: [], 4: the length-4 words}` — even though the remote has two
length-4 words. -/
theorem sequential_error_sets_exit_flag_cx :
    (fetch_sequential true 1000 seq_firstL seq_pageL [3, 4]
        (init_state [])).1 = [(3, []), (4, [])]
    ∧ seq_firstL 4 = .ok [⟨1, 2, [w_abcd, w_efgh]⟩]
    ∧ [w_abcd, w_efgh] ≠ ([] : List WordInput) := by
  refine ⟨by decide, rfl, by decide⟩

/-- Claim C8 (amended): a fatal first-request error on one length is caught
and recorded as an empty list, and the loop does proceed to the remaining
lengths; but the handler also sets the shared exit flag when a signal
handler is attached, so the remaining lengths return empty immediately.
`{3: [], 4: the length-4 words}` is obtained exactly when no signal handler
is attached (`_should_exit()` constantly false). -/
theorem sequential_error_isolation (sa : Bool) (cAt : Nat)
    (firstL : Nat → FirstResp) (pageL : Nat → Nat → PageResp)
    (fp : FirstPage) (db0 : List Row)
    (h3 : firstL 3 = .err) (h4 : firstL 4 = .ok [fp])
    (hp : fp.num_pages = 1) :
    (fetch_sequential sa cAt firstL pageL [3, 4] (init_state db0)).1
      = [(3, []), (4, if sa then [] else fp.word_list)] := by
  cases sa
  · simp [fetch_sequential, fetch_all_words, should_exit_now, init_state,
      after_poll, log_request, merge_step, h3, h4, hp, fetch_loop]
  · by_cases h0 : cAt ≤ 0
    · have h1 : cAt ≤ 1 := by omega
      simp [fetch_sequential, fetch_all_words, should_exit_now, init_state,
        after_poll, log_request, h3, h4, h0, h1]
    · simp [fetch_sequential, fetch_all_words, should_exit_now, init_state,
        after_poll, log_request, h3, h4, h0]

/-- Claim C8 witness: the amended behaviour at the concrete scenario, for
both the attached and the unattached signal handler. -/
theorem sequential_error_isolation_witness :
    (seq_firstL 3 = .err
      ∧ seq_firstL 4 = .ok [⟨1, 2, [w_abcd, w_efgh]⟩]
      ∧ (⟨1, 2, [w_abcd, w_efgh]⟩ : FirstPage).num_pages = 1)
    ∧ (fetch_sequential false 1000 seq_firstL seq_pageL [3, 4]
        (init_state [])).1
      = [(3, []), (4, if false then []
          else (⟨1, 2, [w_abcd, w_efgh]⟩ : FirstPage).word_list)] :=
  ⟨⟨rfl, rfl, rfl⟩,
   sequential_error_isolation false 1000 seq_firstL seq_pageL
     ⟨1, 2, [w_abcd, w_efgh]⟩ [] rfl rfl rfl⟩

/-! Capped fetch (`_fetch_with_limit` in the GUI, C7). -/

/-- Observable state of a capped fetch: shared flag, poll counter,
`merge_with_database` calls, issued requests paired with the accumulated
word count at the moment of the request, and the accumulated word count
after every extension of the buffer. -/
structure GState where
  flag : Bool
  polls : Nat
  merges : List (Nat × List WordInput × Bool)
  requests : List (Nat × Nat)
  sizes : List Nat

/-- `_should_exit()` for the capped fetch. -/
def g_exit (env : FetchEnv) (s : GState) : Bool :=
  env.signalAttached && (s.flag || decide (env.cancelAt ≤ s.polls))

/-- Advance past one poll. -/
def g_poll (s : GState) : GState := { s with polls := s.polls + 1 }

/-- Record a request for page `p` issued while holding `n` words. -/
def g_request (s : GState) (p n : Nat) : GState :=
  { s with requests := s.requests ++ [(p, n)] }

/-- Record a `merge_with_database` call. -/
def g_merge (s : GState) (L : Nat) (ws : List WordInput) (ip : Bool) : GState :=
  { s with merges := s.merges ++ [(L, ws, ip)] }

/-- Record the accumulated word count after an extension. -/
def g_size (s : GState) (n : Nat) : GState := { s with sizes := s.sizes ++ [n] }

/-- Page loop of `_fetch_with_limit` (pages 2..total_pages), keeping the
`pages_fetched` counter: cancellation break at the head (merge partial, then
the final block runs again — the code merges twice on that path); on success
with a cap, each page's contribution is truncated to the remaining slots and
the loop breaks once the cap or the估 estimated page count is reached. -/
def g_loop (env : FetchEnv) (L maxW actual : Nat) :
    List Nat → Nat → List WordInput → GState → List WordInput × GState
  | [], _, acc, s => (acc, s)
  | p :: rest, pf, acc, s =>
    if g_exit env s then (acc, g_merge (g_poll s) L acc true)
    else
      let s1 := g_request (g_poll s) p acc.length
      match env.page p with
      | .err =>
        if g_exit env s1 then (acc, g_merge (g_poll s1) L acc true)
        else g_loop env L maxW actual rest pf acc (g_poll s1)
      | .ok [] =>
        if maxW != 0 && decide (actual ≤ pf + 1) then (acc, s1)
        else g_loop env L maxW actual rest (pf + 1) acc (g_poll s1)
      | .ok (wl :: _) =>
        if maxW != 0 then
          let acc2 := acc ++ wl.take (min wl.length (maxW - acc.length))
          let s2 := g_size s1 acc2.length
          if decide (maxW ≤ acc2.length) then (acc2, s2)
          else if decide (actual ≤ pf + 1) then (acc2, s2)
          else g_loop env L maxW actual rest (pf + 1) acc2 (g_poll s2)
        else
          let acc2 := acc ++ wl
          let s2 := g_size s1 acc2.length
          g_loop env L maxW actual rest (pf + 1) acc2 (g_poll s2)

/-- Embedding of `_fetch_with_limit`: the cap (`max_words`) is
Python-truthy-tested, the page estimate is `⌈maxW / page_size⌉` capped at
the declared total, the first page is truncated to the cap, and the final
block merges with `is_partial = (cap reached) or should_exit()` (the poll
being short-circuited away when the cap is reached). -/
def fetch_with_limit (env : FetchEnv) (L maxW pageSize : Nat) (s : GState) :
    List WordInput × GState :=
  if g_exit env s then ([], g_poll s)
  else
    let s1 := g_request (g_poll s) 1 0
    match env.first with
    | .err => ([], { s1 with flag := s1.flag || env.signalAttached })
    | .ok [] => ([], s1)
    | .ok (fp :: _) =>
      let actual := if maxW != 0 && decide (maxW < fp.num_words)
        then min ((maxW + pageSize - 1) / pageSize) fp.num_pages
        else fp.num_pages
      let wta := if maxW != 0 then min fp.word_list.length maxW
        else fp.word_list.length
      let acc := fp.word_list.take wta
      let s2 := g_size s1 acc.length
      if maxW != 0 && decide (maxW ≤ acc.length) then (acc, g_merge s2 L acc true)
      else if g_exit env s2 then (acc, g_merge (g_poll s2) L acc true)
      else
        let r := g_loop env L maxW actual (List.range' 2 (fp.num_pages - 1)) 1
          acc (g_poll s2)
        if maxW != 0 && decide (maxW ≤ r.1.length) then
          (r.1, g_merge r.2 L r.1 true)
        else (r.1, g_merge (g_poll r.2) L r.1 (g_exit env r.2))

lemma g_loop_cap_inv (env : FetchEnv) (L maxW actual : Nat) (hmax : 1 ≤ maxW) :
    ∀ (pnums : List Nat) (pf : Nat) (acc : List WordInput) (s : GState),
      acc.length < maxW →
      (g_loop env L maxW actual pnums pf acc s).1.length ≤ maxW
      ∧ (∀ n ∈ (g_loop env L maxW actual pnums pf acc s).2.sizes,
          n ∈ s.sizes ∨ n ≤ maxW)
      ∧ (∀ q ∈ (g_loop env L maxW actual pnums pf acc s).2.requests,
          q ∈ s.requests ∨ q.2 < maxW)
      ∧ (maxW ≤ (g_loop env L maxW actual pnums pf acc s).1.length →
          (g_loop env L maxW actual pnums pf acc s).2.merges = s.merges) := by
  have hm0 : (maxW != 0) = true := by
    simp only [bne_iff_ne, ne_eq]
    omega
  intro pnums
  induction pnums with
  | nil =>
    intro pf acc s hacc
    simp only [g_loop]
    exact ⟨Nat.le_of_lt hacc, fun n hn => Or.inl hn, fun q hq => Or.inl hq,
      fun h => absurd h (by omega)⟩
  | cons p rest ih =>
    intro pf acc s hacc
    simp only [g_loop]
    cases hge : g_exit env s
    · simp only [Bool.false_eq_true, if_false]
      cases hp : env.page p with
      | err =>
        cases hge1 : g_exit env (g_request (g_poll s) p acc.length)
        · simp only [Bool.false_eq_true, if_false]
          obtain ⟨ha, hb, hc, hd⟩ :=
            ih pf acc (g_poll (g_request (g_poll s) p acc.length)) hacc
          refine ⟨ha, ?_, ?_, ?_⟩
          · intro n hn
            rcases hb n hn with h | h
            · exact Or.inl h
            · exact Or.inr h
          · intro q hq
            rcases hc q hq with h | h
            · simp only [g_poll, g_request, List.mem_append,
                List.mem_singleton] at h
              rcases h with h | rfl
              · exact Or.inl h
              · exact Or.inr hacc
            · exact Or.inr h
          · intro h
            exact hd h
        · simp only [if_true]
          refine ⟨Nat.le_of_lt hacc, fun n hn => Or.inl hn, ?_,
            fun h => absurd h (by omega)⟩
          intro q hq
          simp only [g_merge, g_poll, g_request, List.mem_append,
            List.mem_singleton] at hq
          rcases hq with h | rfl
          · exact Or.inl h
          · exact Or.inr hacc
      | ok wps =>
        cases wps with
        | nil =>
          cases hbreak : (maxW != 0 && decide (actual ≤ pf + 1))
          · simp only [Bool.false_eq_true, if_false]
            obtain ⟨ha, hb, hc, hd⟩ :=
              ih (pf + 1) acc (g_poll (g_request (g_poll s) p acc.length)) hacc
            refine ⟨ha, hb, ?_, hd⟩
            intro q hq
            rcases hc q hq with h | h
            · simp only [g_poll, g_request, List.mem_append,
                List.mem_singleton] at h
              rcases h with h | rfl
              · exact Or.inl h
              · exact Or.inr hacc
            · exact Or.inr h
          · simp only [if_true]
            refine ⟨Nat.le_of_lt hacc, fun n hn => Or.inl hn, ?_,
              fun h => absurd h (by omega)⟩
            intro q hq
            simp only [g_request, g_poll, List.mem_append,
              List.mem_singleton] at hq
            rcases hq with h | rfl
            · exact Or.inl h
            · exact Or.inr hacc
        | cons wl wtl =>
          simp only [hm0, if_true]
          have htake : (wl.take (min wl.length (maxW - acc.length))).length
              ≤ maxW - acc.length := by
            simp only [List.length_take]
            omega
          have hlen2 : (acc ++ wl.take (min wl.length (maxW - acc.length))).length
              ≤ maxW := by
            simp only [List.length_append]
            omega
          cases hcap : decide (maxW ≤
              (acc ++ wl.take (min wl.length (maxW - acc.length))).length)
          · simp only [Bool.false_eq_true, if_false]
            have hlt : (acc ++ wl.take (min wl.length (maxW - acc.length))).length
                < maxW := by
              have := of_decide_eq_false hcap
              omega
            cases hpg : decide (actual ≤ pf + 1)
            · simp only [Bool.false_eq_true, if_false]
              obtain ⟨ha, hb, hc, hd⟩ := ih (pf + 1)
                (acc ++ wl.take (min wl.length (maxW - acc.length)))
                (g_poll (g_size (g_request (g_poll s) p acc.length)
                  (acc ++ wl.take (min wl.length (maxW - acc.length))).length))
                hlt
              refine ⟨ha, ?_, ?_, hd⟩
              · intro n hn
                rcases hb n hn with h | h
                · simp only [g_poll, g_size, g_request, List.mem_append,
                    List.mem_singleton] at h
                  rcases h with h | rfl
                  · exact Or.inl h
                  · exact Or.inr hlen2
                · exact Or.inr h
              · intro q hq
                rcases hc q hq with h | h
                · simp only [g_poll, g_size, g_request, List.mem_append,
                    List.mem_singleton] at h
                  rcases h with h | rfl
                  · exact Or.inl h
                  · exact Or.inr hacc
                · exact Or.inr h
            · simp only [if_true]
              refine ⟨hlen2, ?_, ?_, fun h => absurd h (by omega)⟩
              · intro n hn
                simp only [g_size, g_request, g_poll, List.mem_append,
                  List.mem_singleton] at hn
                rcases hn with h | rfl
                · exact Or.inl h
                · exact Or.inr hlen2
              · intro q hq
                simp only [g_size, g_request, g_poll, List.mem_append,
                  List.mem_singleton] at hq
                rcases hq with h | rfl
                · exact Or.inl h
                · exact Or.inr hacc
          · simp only [if_true]
            refine ⟨hlen2, ?_, ?_, ?_⟩
            · intro n hn
              simp only [g_size, g_request, g_poll, List.mem_append,
                List.mem_singleton] at hn
              rcases hn with h | rfl
              · exact Or.inl h
              · exact Or.inr hlen2
            · intro q hq
              simp only [g_size, g_request, g_poll, List.mem_append,
                List.mem_singleton] at hq
              rcases hq with h | rfl
              · exact Or.inl h
              · exact Or.inr hacc
            · intro _
              simp [g_size, g_request, g_poll]
    · simp only [if_true]
      exact ⟨Nat.le_of_lt hacc, fun n hn => Or.inl hn, fun q hq => Or.inl hq,
        fun h => absurd h (by omega)⟩

/-- Claim C7: with a positive word cap present, the accumulated word list
never exceeds the cap at any point of the fetch (every recorded buffer size
is at most the cap), every page request is issued while strictly fewer than
cap words are held (so no request is ever issued after the cap is reached),
the result never exceeds the cap, and whenever the cap is reached the fetch
performs exactly one merge, of the collected words, with
`is_partial = true`. -/
theorem fetch_with_limit_cap (env : FetchEnv) (L maxW pageSize : Nat)
    (hmax : 1 ≤ maxW) :
    (fetch_with_limit env L maxW pageSize ⟨false, 0, [], [], []⟩).1.length ≤ maxW
    ∧ ((fetch_with_limit env L maxW pageSize ⟨false, 0, [], [], []⟩).2.sizes.all
        (fun n => decide (n ≤ maxW)) = true)
    ∧ ((fetch_with_limit env L maxW pageSize
        ⟨false, 0, [], [], []⟩).2.requests.all
          (fun q => decide (q.2 < maxW)) = true)
    ∧ (maxW ≤ (fetch_with_limit env L maxW pageSize
          ⟨false, 0, [], [], []⟩).1.length →
        (fetch_with_limit env L maxW pageSize ⟨false, 0, [], [], []⟩).2.merges
          = [(L, (fetch_with_limit env L maxW pageSize
              ⟨false, 0, [], [], []⟩).1, true)]) := by
  have hm0 : (maxW != 0) = true := by
    simp only [bne_iff_ne, ne_eq]
    omega
  have hpos : 0 < maxW := hmax
  simp only [fetch_with_limit, hm0, Bool.true_and, if_true, g_request, g_poll,
    g_size, List.nil_append, Nat.zero_add, Nat.reduceAdd]
  cases hge : g_exit env ⟨false, 0, [], [], []⟩
  · simp only [Bool.false_eq_true, if_false]
    cases hf : env.first with
    | err =>
      refine ⟨by simp, by simp, by simp [hpos], fun h => absurd h ?_⟩
      simp only [List.length_nil, Nat.le_zero]
      omega
    | ok wps =>
      cases wps with
      | nil =>
        refine ⟨by simp, by simp, by simp [hpos], fun h => absurd h ?_⟩
        simp only [List.length_nil, Nat.le_zero]
        omega
      | cons fp ftl =>
        dsimp only
        generalize hAct : (if decide (maxW < fp.num_words) = true
            then min ((maxW + pageSize - 1) / pageSize) fp.num_pages
            else fp.num_pages) = actualN
        have htl : (fp.word_list.take (min fp.word_list.length maxW)).length
            ≤ maxW := by
          simp only [List.length_take]
          omega
        split
        next h1 =>
          refine ⟨htl, ?_, ?_, fun _ => ?_⟩ <;> simp [g_merge, htl, hpos]
        next h1 =>
          have hacc : (fp.word_list.take (min fp.word_list.length maxW)).length
              < maxW := by
            simp only [decide_eq_true_eq] at h1
            omega
          split
          next h2 =>
            refine ⟨htl, ?_, ?_, fun _ => ?_⟩ <;> simp [g_merge, htl, hpos]
          next h2 =>
            obtain ⟨ha, hb, hc, hd⟩ := g_loop_cap_inv env L maxW actualN
              hmax (List.range' 2 (fp.num_pages - 1)) 1
              (fp.word_list.take (min fp.word_list.length maxW))
              ⟨false, 2, [], [(1, 0)],
                [(fp.word_list.take (min fp.word_list.length maxW)).length]⟩
              hacc
            split
            next h3 =>
              refine ⟨ha, ?_, ?_, fun _ => ?_⟩
              · simp only [g_merge, List.all_eq_true]
                intro n hn
                rcases hb n hn with h | h
                · simp only [List.mem_singleton] at h
                  subst h
                  simp [htl]
                · simp [h]
              · simp only [g_merge, List.all_eq_true]
                intro q hq
                rcases hc q hq with h | h
                · simp only [List.mem_singleton] at h
                  subst h
                  simp [hpos]
                · simp [h]
              · have hmerge := hd (of_decide_eq_true h3)
                simp only [g_merge, hmerge, List.nil_append]
            next h3 =>
              refine ⟨ha, ?_, ?_, fun h => absurd h ?_⟩
              · simp only [g_merge, g_poll, List.all_eq_true]
                intro n hn
                rcases hb n hn with h | h
                · simp only [List.mem_singleton] at h
                  subst h
                  simp [htl]
                · simp [h]
              · simp only [g_merge, g_poll, List.all_eq_true]
                intro q hq
                rcases hc q hq with h | h
                · simp only [List.mem_singleton] at h
                  subst h
                  simp [hpos]
                · simp [h]
              · simp only [decide_eq_true_eq] at h3
                dsimp only
                omega
  · simp only [if_true]
    refine ⟨by simp, by simp, by simp, fun h => absurd h ?_⟩
    simp only [List.length_nil, Nat.le_zero]
    omega

/-- Cap-scenario environment: same 3-page remote service, no signal handler
(so no cancellation), used to witness the cap behaviour. -/
def cap_env : FetchEnv :=
  ⟨.ok [⟨3, 6, [w_abcd, w_efgh]⟩], demo_page, false, 0⟩

/-- Claim C7 witness: a cap of 3 on the 3-page scenario (page size 2) keeps
every buffer size at ≤ 3, issues every request below the cap (never page 3),
reaches the cap, and merges the three collected words once as partial. -/
theorem fetch_with_limit_cap_witness :
    (1 ≤ 3)
    ∧ (fetch_with_limit cap_env 4 3 2 ⟨false, 0, [], [], []⟩).1.length ≤ 3
    ∧ ((fetch_with_limit cap_env 4 3 2 ⟨false, 0, [], [], []⟩).2.sizes.all
        (fun n => decide (n ≤ 3)) = true)
    ∧ ((fetch_with_limit cap_env 4 3 2 ⟨false, 0, [], [], []⟩).2.requests.all
        (fun q => decide (q.2 < 3)) = true)
    ∧ (3 ≤ (fetch_with_limit cap_env 4 3 2 ⟨false, 0, [], [], []⟩).1.length)
    ∧ ((fetch_with_limit cap_env 4 3 2 ⟨false, 0, [], [], []⟩).2.merges
        = [(4, (fetch_with_limit cap_env 4 3 2 ⟨false, 0, [], [], []⟩).1,
            true)]) := by
  have h := fetch_with_limit_cap cap_env 4 3 2 (by decide)
  exact ⟨by decide, h.1, h.2.1, h.2.2.1, by decide, h.2.2.2 (by decide)⟩

end WordFinder
